import Mathlib

/-!
Verification of the ZSU daily-brief scraper (`scrap.py`): a shallow embedding
of its text cleaning, date extraction, link discovery, crawl frontier and
aggregation logic, with theorems settling the specification's claims.
-/

namespace Scrap

/-! ### Character classes (Python regex classes over the ASCII range) -/

/-- Horizontal whitespace, the regex class `[ \t]`. -/
def isHT (c : Char) : Bool := c == ' ' || c == '\t'

/-- Python's `\s` over ASCII: space, tab, newline, carriage return,
vertical tab, form feed. -/
def isPySpace (c : Char) : Bool :=
  c == ' ' || c == '\t' || c == '\n' || c == '\r' || c == '\x0b' || c == '\x0c'

/-! ### `clean_text` (source lines 68-69)

`re.sub(r"\s+\n", "\n", re.sub(r"[ \t]+", " ", t)).strip()` -/

/-- Model of `re.sub(r"[ \t]+", " ", t)`: each maximal run of spaces/tabs
becomes a single space.  `inRun` records whether the previous character was
part of a space/tab run (whose single replacement space is already emitted). -/
def collapseHTAux (inRun : Bool) : List Char → List Char
  | [] => []
  | c :: cs =>
    if isHT c then
      (if inRun then [] else [' ']) ++ collapseHTAux true cs
    else c :: collapseHTAux false cs

def collapseHT (l : List Char) : List Char := collapseHTAux false l

/-- The suffix of `l` strictly after its last `'\n'` (all of `l` if none). -/
def afterLastNL (l : List Char) : List Char :=
  (l.reverse.takeWhile (fun c => c != '\n')).reverse

/-- How `re.sub(r"\s+\n", "\n", ·)` rewrites one maximal whitespace run:
with leftmost search and greedy backtracking, a match starting at the run's
first character extends to the run's last newline, provided that newline is
not the run's very first character; the matched span becomes one newline and
the run's remainder (which contains no newline) is kept.  A run whose only
newline is its first character (or which has none) admits no match and is
kept whole. -/
def flushRun (run : List Char) : List Char :=
  if run.tail.contains '\n' then '\n' :: afterLastNL run else run

/-- Model of `re.sub(r"\s+\n", "\n", t)`: rewrite each maximal whitespace
run by `flushRun`.  `pending` accumulates the current run. -/
def squeezeNLAux (pending : List Char) : List Char → List Char
  | [] => flushRun pending
  | c :: cs =>
    if isPySpace c then squeezeNLAux (pending ++ [c]) cs
    else flushRun pending ++ c :: squeezeNLAux [] cs

def squeezeNL (l : List Char) : List Char := squeezeNLAux [] l

/-- Model of Python `str.strip()`: drop leading and trailing whitespace. -/
def pyStrip (l : List Char) : List Char :=
  ((l.dropWhile isPySpace).reverse.dropWhile isPySpace).reverse

/-- `clean_text` from the source: collapse horizontal runs, squeeze
whitespace-before-newline, strip the ends. -/
def clean_text (t : String) : String :=
  ⟨pyStrip (squeezeNL (collapseHT t.data))⟩

/-! ### The "Читайте також" cut in `extract_article_text` (source lines 80-81)

`txt = re.split(r"Чит(а|а)йте також", txt, flags=re.IGNORECASE)[0]` — both
alternatives of the group are the same Cyrillic а, so the pattern is the
literal phrase, matched case-insensitively. -/

/-- Case folding as Python's `re.IGNORECASE` applies it to the characters of
the marker phrase: ASCII letters and the Cyrillic range А-Я (U+0410-U+042F),
which lowercases by adding 0x20. -/
def pyLower (c : Char) : Char :=
  if 'A' ≤ c && c ≤ 'Z' then Char.ofNat (c.toNat + 32)
  else if 'А' ≤ c && c ≤ 'Я' then Char.ofNat (c.toNat + 32)
  else c

/-- The marker phrase of the split pattern, lowercased. -/
def marker : List Char := [ 'ч', 'и', 'т', 'а', 'й', 'т', 'е', ' ', 'т', 'а', 'к', 'о', 'ж' ]

/-- Does `pat` start `txt`, comparing case-insensitively? -/
def startsWithCI : List Char → List Char → Bool
  | [], _ => true
  | _ :: _, [] => false
  | p :: ps, c :: cs => (pyLower p == pyLower c) && startsWithCI ps cs

/-- Does the marker phrase occur (case-insensitively) anywhere in `l`? -/
def containsReadAlso : List Char → Bool
  | [] => false
  | c :: cs => startsWithCI marker (c :: cs) || containsReadAlso cs

/-- `re.split(pattern, txt)[0]`: the text strictly before the first
(case-insensitive) occurrence of the marker; all of `txt` if none. -/
def splitReadAlso : List Char → List Char
  | [] => []
  | c :: cs =>
    if startsWithCI marker (c :: cs) then []
    else c :: splitReadAlso cs

/-- The tail of `extract_article_text`: cut the joined paragraph text at the
marker, then `clean_text` it. -/
def extract_body (txt : String) : String :=
  clean_text ⟨splitReadAlso txt.data⟩

/-! ### Date extraction from the title (source lines 135-143)

`re.search(r"(\d{1,2})[.\-](\d{1,2})[.\-](\d{2,4})", title)`, then
`yy = "20"+yy if len(yy)==2 else yy`, then
`datetime(int(yy), int(mm), int(dd)).date().isoformat()`, with an
invalid date giving the empty slug. -/

def isSep (c : Char) : Bool := c == '.' || c == '-'

/-- Exactly `n` leading decimal digits, with the remainder. -/
def takeDigits : Nat → List Char → Option (List Char × List Char)
  | 0, rest => some ([], rest)
  | _ + 1, [] => none
  | n + 1, c :: cs =>
    if c.isDigit then (takeDigits n cs).map (fun p => (c :: p.1, p.2)) else none

/-- `\d{2,4}`, greedy: try four digits, then three, then two. -/
def matchYY (l : List Char) : Option (List Char) :=
  match takeDigits 4 l with
  | some p => some p.1
  | none =>
    match takeDigits 3 l with
    | some p => some p.1
    | none => (takeDigits 2 l).map Prod.fst

/-- `[.\-](\d{2,4})`. -/
def matchSepYY : List Char → Option (List Char)
  | [] => none
  | s :: rest => if isSep s then matchYY rest else none

/-- `(\d{1})[.\-](\d{2,4})` for the month position. -/
def matchMM1 (l : List Char) : Option (List Char × List Char) :=
  match takeDigits 1 l with
  | some p => (matchSepYY p.2).map (fun yy => (p.1, yy))
  | none => none

/-- `(\d{1,2})[.\-](\d{2,4})` for the month position, greedy with
backtracking: two digits first, then one. -/
def matchFromMM (l : List Char) : Option (List Char × List Char) :=
  match takeDigits 2 l with
  | some p =>
    match matchSepYY p.2 with
    | some yy => some (p.1, yy)
    | none => matchMM1 l
  | none => matchMM1 l

/-- `[.\-]` then the month-and-year part. -/
def matchSepMM : List Char → Option (List Char × List Char)
  | [] => none
  | s :: rest => if isSep s then matchFromMM rest else none

/-- One digit for the day, then the rest of the pattern. -/
def matchDD1 (l : List Char) : Option (List Char × List Char × List Char) :=
  match takeDigits 1 l with
  | some p => (matchSepMM p.2).map (fun q => (p.1, q))
  | none => none

/-- The whole pattern anchored at the start of `l`, day part greedy:
two digits first, then one. -/
def matchDateAt (l : List Char) : Option (List Char × List Char × List Char) :=
  match takeDigits 2 l with
  | some p =>
    match matchSepMM p.2 with
    | some q => some (p.1, q)
    | none => matchDD1 l
  | none => matchDD1 l

/-- `re.search`: leftmost position where the pattern matches. -/
def re_search_date : List Char → Option (List Char × List Char × List Char)
  | [] => none
  | c :: cs =>
    match matchDateAt (c :: cs) with
    | some r => some r
    | none => re_search_date cs

/-- `int` on a string of decimal digits. -/
def digitsToNat (l : List Char) : Nat :=
  l.foldl (fun n c => 10 * n + (c.toNat - 48)) 0

/-- `yy = "20"+yy if len(yy)==2 else yy`. -/
def expandYear (yy : List Char) : List Char :=
  if yy.length == 2 then '2' :: '0' :: yy else yy

/-- Proleptic-Gregorian leap year, as Python's `datetime`. -/
def isLeap (y : Nat) : Bool := y % 4 == 0 && (y % 100 != 0 || y % 400 == 0)

def daysInMonth (y m : Nat) : Nat :=
  if m == 2 then (if isLeap y then 29 else 28)
  else if m == 4 || m == 6 || m == 9 || m == 11 then 30
  else 31

/-- The constructor condition of `datetime(year, month, day)`:
`MINYEAR ≤ year ≤ MAXYEAR`, a real month and a real day of that month. -/
def validDate (y m d : Nat) : Bool :=
  1 ≤ y && y ≤ 9999 && 1 ≤ m && m ≤ 12 && 1 ≤ d && d ≤ daysInMonth y m

/-- Decimal digits of `n`, zero-padded on the left to width `w`. -/
def padNum (w n : Nat) : List Char :=
  let s := Nat.toDigits 10 n
  List.replicate (w - s.length) '0' ++ s

/-- `date(y, m, d).isoformat()`: `YYYY-MM-DD`. -/
def isoformat (y m d : Nat) : String :=
  ⟨padNum 4 y ++ '-' :: padNum 2 m ++ '-' :: padNum 2 d⟩

/-- Lines 135-143 of `main`: the `date_slug` computed from a title. -/
def date_slug_of_title (title : String) : String :=
  match re_search_date title.data with
  | none => ""
  | some (dd, mm, yy) =>
    let y := digitsToNat (expandYear yy)
    let m := digitsToNat mm
    let d := digitsToNat dd
    if validDate y m d then isoformat y m d else ""

/-! ### `find_prev_day_links` (source lines 83-94) -/

/-- Is `pat` a prefix of `l`? -/
def isPrefixOfL : List Char → List Char → Bool
  | [], _ => true
  | _ :: _, [] => false
  | p :: ps, c :: cs => p == c && isPrefixOfL ps cs

/-- Does `pat` occur as a contiguous substring of `l` (Python's `in`)? -/
def containsSub (l pat : List Char) : Bool :=
  isPrefixOfL pat l ||
    match l with
    | [] => false
    | _ :: cs => containsSub cs pat

def FRAG1 : String := "operatyvna-informatsiia"

def FRAG2 : String := "shchodo-rosiiskoho-vtorhnennia"

def START_URL : String :=
  "https://www.zsu.gov.ua/news/operatyvna-informatsiia-stanom-na-0800-20102025-shchodo-rosiiskoho-vtorhnennia"

/-- The filter of line 87: the raw `href` must contain both slug fragments. -/
def hrefWanted (h : String) : Bool :=
  containsSub h.data FRAG1.data && containsSub h.data FRAG2.data

/-- The part of `b` up to and including `://`, with the remainder. -/
def spanScheme : List Char → List Char × List Char
  | [] => ([], [])
  | c :: cs =>
    if isPrefixOfL ("://").data (c :: cs) then ((':' :: '/' :: '/' :: []), cs.drop 2)
    else
      match spanScheme cs with
      | (pre, rest) => (c :: pre, rest)

/-- `scheme://authority` of an absolute URL: everything up to the first `/`
after `://`. -/
def schemeAuth (b : List Char) : List Char :=
  match spanScheme b with
  | (pre, rest) => pre ++ rest.takeWhile (fun c => c != '/')

/-- The URL up to and including its last `/`. -/
def dirOfUrl (b : List Char) : List Char :=
  (b.reverse.dropWhile (fun c => c != '/')).reverse

/-- Modelled from the spec: the URL-resolution collaborator (`urljoin` of the
URL library, which is not part of src/) that makes an href absolute against
the source URL's base; it handles already-absolute, fragment-only,
scheme-relative, root-relative and relative href forms, without dot-segment
or query normalization. -/
def urljoin (base href : String) : String :=
  if href.data = [] then base
  else if containsSub href.data ("://").data then href
  else if href.data.head? = some '#' then
    ⟨base.data.takeWhile (fun c => c != '#') ++ href.data⟩
  else if isPrefixOfL ("//").data href.data then
    ⟨base.data.takeWhile (fun c => c != ':') ++ ':' :: href.data⟩
  else if href.data.head? = some '/' then
    ⟨schemeAuth base.data ++ href.data⟩
  else
    ⟨dirOfUrl base.data ++ href.data⟩

/-- The collection loop of lines 85-89: for each anchor's href, if the raw
href contains both fragments, append its absolute resolution. -/
def collectLinks (base : String) (hrefs : List String) : List String :=
  hrefs.foldl (fun acc h => if hrefWanted h then acc ++ [urljoin base h] else acc) []

/-- The dedupe loop of lines 91-93: keep first occurrences, tracking a
`seen` set. -/
def dedupeGo (seen : List String) : List String → List String
  | [] => []
  | u :: us =>
    if u ∈ seen then dedupeGo seen us
    else u :: dedupeGo (u :: seen) us

/-- `find_prev_day_links(soup, base_url)`, over the page's anchor hrefs. -/
def find_prev_day_links (hrefs : List String) (base : String) : List String :=
  dedupeGo [] (collectLinks base hrefs)

/-! ### The crawl frontier (`main`, source lines 108-155) -/

def DAYS_BACK : Nat := 30

def MAX_PAGES : Nat := DAYS_BACK * 2

/-- What a successful fetch-and-parse of one URL yields: the parsed title and
body text, and the related links found on the page. -/
structure Page where
  title : String
  text : String
  links : List String
deriving DecidableEq, Repr

/-- One entry of `rows`: the dict built at lines 130-146. -/
structure Row where
  url : String
  title : String
  text : String
  date_slug : String
deriving DecidableEq, Repr

def mkRow (url : String) (p : Page) : Row :=
  ⟨url, p.title, p.text, date_slug_of_title p.title⟩

/-- The loop state of `main`: the output rows, the visited set, the pending
FIFO queue, and (as an observation of the run, not program state) the trace
of URLs passed to `driver.get`. -/
structure CrawlState where
  rows : List Row
  visited : List String
  queue : List String
  fetched : List String
deriving DecidableEq, Repr

/-- Lines 151-153: enqueue each discovered link that is neither visited nor
already pending. -/
def enqueue (visited : List String) (queue : List String) (links : List String) : List String :=
  links.foldl (fun q u => if u ∈ visited ∨ u ∈ q then q else q ++ [u]) queue

/-- A fetch oracle: what navigating to a URL yields, `none` on a
`driver.get` failure. -/
def Oracle := String → Option Page

/-- One iteration of the `while` body (lines 109-155): pop the queue head,
skip it if visited, otherwise mark it visited, fetch it, and on success
append its row and enqueue its fresh links. -/
def crawlStep (oracle : Oracle) (s : CrawlState) : CrawlState :=
  match s.queue with
  | [] => s
  | url :: rest =>
    if url ∈ s.visited then { s with queue := rest }
    else
      match oracle url with
      | none =>
        { s with visited := url :: s.visited, queue := rest,
                 fetched := s.fetched ++ [url] }
      | some page =>
        { rows := s.rows ++ [mkRow url page],
          visited := url :: s.visited,
          queue := enqueue (url :: s.visited) rest page.links,
          fetched := s.fetched ++ [url] }

/-- The `while` guard of line 112. -/
def crawlGuard (s : CrawlState) : Prop :=
  s.queue ≠ [] ∧ s.rows.length < DAYS_BACK ∧ s.visited.length < MAX_PAGES

instance : DecidablePred crawlGuard := fun s => by
  unfold crawlGuard; infer_instance

/-- Each guarded iteration either grows the visited set (bounded by the
guard) or shortens the queue, so the loop's lexicographic measure drops. -/
theorem crawlStep_measure (oracle : Oracle) (s : CrawlState) (h : crawlGuard s) :
    (crawlStep oracle s).visited.length = s.visited.length + 1 ∨
      ((crawlStep oracle s).visited = s.visited ∧
        (crawlStep oracle s).queue.length < s.queue.length) := by
  obtain ⟨hq, -, -⟩ := h
  match hs : s.queue with
  | [] => exact absurd hs hq
  | url :: rest =>
    by_cases hv : url ∈ s.visited
    · right
      simp [crawlStep, hs, hv]
    · left
      cases horacle : oracle url <;> simp [crawlStep, hs, hv, horacle]

/-- The `while` loop of lines 112-155. -/
def crawl (oracle : Oracle) (s : CrawlState) : CrawlState :=
  if h : crawlGuard s then crawl oracle (crawlStep oracle s) else s
termination_by (MAX_PAGES - s.visited.length, s.queue.length)
decreasing_by
  rcases crawlStep_measure oracle s h with hvis | ⟨hvis, hqueue⟩
  · have hcap := h.2.2
    exact Prod.Lex.left _ _ (by rw [hvis]; omega)
  · rw [hvis]
    exact Prod.Lex.right _ hqueue

/-- The initial state of lines 109-111. -/
def initState : CrawlState := ⟨[], [], [START_URL], []⟩

/-! ### The aggregator (`main`, source lines 157-166) -/

/-- `len(date_slug) > 0`: the record carries a parsed date. -/
def hasDate (r : Row) : Bool := r.date_slug ≠ ""

/-- `drop_duplicates(subset=["url"])`: keep the first row for each URL. -/
def dedupeByUrlGo (seen : List String) : List Row → List Row
  | [] => []
  | r :: rs =>
    if r.url ∈ seen then dedupeByUrlGo seen rs
    else r :: dedupeByUrlGo (r.url :: seen) rs

def dedupeByUrl (l : List Row) : List Row := dedupeByUrlGo [] l

/-- Stable insertion for the descending sort on `date_slug` (ISO-8601 slugs
compare chronologically as strings). -/
def insertDesc (x : Row) : List Row → List Row
  | [] => [x]
  | y :: ys =>
    if y.date_slug ≤ x.date_slug then x :: y :: ys
    else y :: insertDesc x ys

/-- `sort_values("date_slug", ascending=False)`, modelled as a stable sort
(the source leaves the order of equal dates unspecified). -/
def sortDesc : List Row → List Row
  | [] => []
  | x :: xs => insertDesc x (sortDesc xs)

/-- Lines 157-166: dedupe by URL; if any record is dated, keep the dated
ones sorted by date descending and truncate, else truncate as-is. -/
def aggregate (rows : List Row) : List Row :=
  if (dedupeByUrl rows).any hasDate = true then
    (sortDesc ((dedupeByUrl rows).filter hasDate)).take DAYS_BACK
  else (dedupeByUrl rows).take DAYS_BACK

/-- The whole run after the browser session is acquired: crawl from the
seed, then aggregate the rows into the exported table. -/
def run_export (oracle : Oracle) : List Row :=
  aggregate (crawl oracle initState).rows

/-! ### Spec-side restatements used by the refinement claims -/

/-- First-occurrence deduplication as the spec phrases it (keep the first
occurrence, drop later duplicates of it), for comparison with the
accumulator loop of the source. -/
def dedupeSpec : List String → List String
  | [] => []
  | u :: us => u :: (dedupeSpec us).filter (fun v => decide (v ≠ u))

/-- The related-links extraction as claim C6 words it: resolve every anchor
href against the base first, keep those whose resolved form contains both
slug fragments, deduplicate preserving first-seen order. -/
def find_prev_day_links_claimed (hrefs : List String) (base : String) : List String :=
  dedupeSpec ((hrefs.map (urljoin base)).filter hrefWanted)

/-- Deduplication by URL as the spec phrases it: keep the first record of
each URL, drop later records carrying it. -/
def dedupeByUrlSpec : List Row → List Row
  | [] => []
  | r :: rs => r :: (dedupeByUrlSpec rs).filter (fun x => decide (x.url ≠ r.url))

/-- The aggregation as claim C3 words it: deduplicate by URL keeping first
occurrences, and either keep the dated records sorted by date descending
(truncated, the undated ones discarded) when at least one record is dated,
or, when none is, the first records in discovery order. -/
def aggregate_spec (rows : List Row) : List Row :=
  if (dedupeByUrlSpec rows).filter hasDate = [] then
    (dedupeByUrlSpec rows).take DAYS_BACK
  else (sortDesc ((dedupeByUrlSpec rows).filter hasDate)).take DAYS_BACK

/-! ### Claim C4 and C10: date extraction -/

/-- Claim C4: date extraction matches the `D[.-]M[.-]YY[YY]` pattern using
the first match, expands two-digit years with a "20" prefix, yields the
empty slug on no match or an invalid calendar date, and otherwise produces
the ISO-8601 form; witnessed by the four specification examples. -/
theorem c4_date_extraction :
    date_slug_of_title ("08:00 20.10.2025") = ("2025-10-20") ∧
    date_slug_of_title ("31.02.2025") = ("") ∧
    date_slug_of_title ("no digits here") = ("") ∧
    date_slug_of_title ("1.1.25") = ("2025-01-01") ∧
    ∀ t : String, date_slug_of_title t = ("") ∨
      ∃ y m d : Nat, validDate y m d = true ∧ date_slug_of_title t = isoformat y m d := by
  refine ⟨by decide, by decide, by decide, by decide, ?_⟩
  intro t
  unfold date_slug_of_title
  cases re_search_date t.data with
  | none => exact Or.inl rfl
  | some r =>
    obtain ⟨dd, mm, yy⟩ := r
    by_cases hv : validDate (digitsToNat (expandYear yy)) (digitsToNat mm) (digitsToNat dd) = true
    · exact Or.inr ⟨_, _, _, hv, by simp only [hv, if_true]⟩
    · rw [Bool.not_eq_true] at hv
      exact Or.inl (by simp only [hv, Bool.false_eq_true, if_false])

/-- Claim C10: a three-digit year in the first match is used verbatim,
without the "20" prefix; `"1.1.202"` yields `"0202-01-01"`. -/
theorem c10_three_digit_year :
    date_slug_of_title ("1.1.202") = ("0202-01-01") ∧
    ∀ yy : List Char, yy.length = 3 → expandYear yy = yy := by
  refine ⟨by decide, ?_⟩
  intro yy h
  simp [expandYear, h]

/-- Concrete instance of the three-digit-year clause of `c10_three_digit_year`. -/
theorem c10_three_digit_year_witness :
    ("202").data.length = 3 ∧ expandYear (("202").data) = ("202").data :=
  ⟨by decide, c10_three_digit_year.2 (("202").data) (by decide)⟩

/-! ### Claim C6: related-links extraction -/

/-- `foldl`-with-accumulator form of the collection loop equals
filter-then-map. -/
theorem collectLinks_eq (base : String) (hrefs : List String) :
    collectLinks base hrefs = (hrefs.filter hrefWanted).map (urljoin base) := by
  have key : ∀ (hs : List String) (acc : List String),
      hs.foldl (fun acc h => if hrefWanted h then acc ++ [urljoin base h] else acc) acc =
        acc ++ (hs.filter hrefWanted).map (urljoin base) := by
    intro hs
    induction hs with
    | nil => simp
    | cons h hs ih =>
      intro acc
      by_cases hw : hrefWanted h
      · simp [hw, ih, List.append_assoc]
      · simp [hw, ih]
  exact key hrefs []

/-- Two filters over the same list commute. -/
theorem filter_swap {α : Type} (p q : α → Bool) (l : List α) :
    (l.filter p).filter q = (l.filter q).filter p := by
  simp only [List.filter_filter]
  exact List.filter_congr (fun a _ => Bool.and_comm (q a) (p a))

/-- Every element the spec-side dedupe keeps was in the input. -/
theorem mem_dedupeSpec {v : String} : ∀ {l : List String}, v ∈ dedupeSpec l → v ∈ l := by
  intro l
  induction l with
  | nil => exact fun h => h
  | cons u us ih =>
    intro hv
    rcases List.mem_cons.mp hv with h | h
    · exact List.mem_cons.mpr (Or.inl h)
    · exact List.mem_cons.mpr (Or.inr (ih (List.mem_of_mem_filter h)))

/-- Filtering commutes with the spec-side dedupe. -/
theorem filter_dedupeSpec (p : String → Bool) :
    ∀ l : List String, (dedupeSpec l).filter p = dedupeSpec (l.filter p) := by
  intro l
  induction l with
  | nil => rfl
  | cons u us ih =>
    by_cases hp : p u = true
    · simp only [dedupeSpec, List.filter_cons, hp, ite_true]
      rw [filter_swap, ih]
    · rw [Bool.not_eq_true] at hp
      simp only [dedupeSpec, List.filter_cons, hp, Bool.false_eq_true, ite_false]
      rw [filter_swap, ih, List.filter_eq_self.mpr]
      intro a ha
      have hap : p a = true := List.of_mem_filter (mem_dedupeSpec ha)
      have : a ≠ u := fun hau => by rw [hau, hp] at hap; exact Bool.false_ne_true hap
      exact decide_eq_true this

/-- The seen-set dedupe loop equals the spec-side recursive dedupe of the
elements not yet seen. -/
theorem dedupeGo_eq_spec (l : List String) :
    ∀ seen : List String, dedupeGo seen l = dedupeSpec (l.filter (fun v => decide (v ∉ seen))) := by
  induction l with
  | nil => intro seen; rfl
  | cons u us ih =>
    intro seen
    by_cases hu : u ∈ seen
    · have hdec : decide (u ∉ seen) = false := by simp [hu]
      simp only [dedupeGo, if_pos hu, List.filter_cons, hdec, Bool.false_eq_true, ite_false]
      exact ih seen
    · have hdec : decide (u ∉ seen) = true := by simp [hu]
      have hff : (us.filter (fun v => decide (v ∉ seen))).filter (fun v => decide (v ≠ u)) =
          us.filter (fun v => decide (v ∉ (u :: seen))) := by
        rw [List.filter_filter]
        refine List.filter_congr ?_
        intro v _
        by_cases hvu : v = u <;> by_cases hvs : v ∈ seen <;> simp [hvu, hvs]
      simp only [dedupeGo, if_neg hu, List.filter_cons, hdec, ite_true, dedupeSpec]
      rw [ih (u :: seen), filter_dedupeSpec, hff]

/-- Claim C6, corrected: the source filters on the raw href, so an anchor
whose raw href lacks the slug fragments is dropped even when its resolved
form contains both (a fragment-only href against the seed URL). -/
theorem c6_resolved_filter_counterexample :
    find_prev_day_links [("#top")] START_URL = [] ∧
    urljoin START_URL ("#top") = START_URL ++ ("#top") ∧
    hrefWanted (urljoin START_URL ("#top")) = true ∧
    find_prev_day_links [("#top")] START_URL ≠
      find_prev_day_links_claimed [("#top")] START_URL := by
  refine ⟨by decide, by decide, by decide, by decide⟩

/-- Claim C6, amended: the extraction returns exactly the anchors whose raw
href contains both slug fragments, as absolute URLs resolved against the
base, deduplicated preserving first-seen order. -/
theorem c6_raw_filter_links (hrefs : List String) (base : String) :
    find_prev_day_links hrefs base =
      dedupeSpec ((hrefs.filter hrefWanted).map (urljoin base)) := by
  rw [find_prev_day_links, collectLinks_eq, dedupeGo_eq_spec]
  congr 1
  rw [List.filter_eq_self]
  intro a _
  simp

/-- Concrete instance of `c6_raw_filter_links` at the seed URL. -/
theorem c6_raw_filter_links_witness :
    find_prev_day_links [START_URL, ("#top"), START_URL] START_URL =
      dedupeSpec (([START_URL, ("#top"), START_URL].filter hrefWanted).map (urljoin START_URL)) :=
  c6_raw_filter_links [START_URL, ("#top"), START_URL] START_URL

/-! ### Claim C7: the "Читайте також" cut -/

/-- A case-insensitive match survives extending the text to the right. -/
theorem startsWithCI_of_isPrefix :
    ∀ (pat l1 l2 : List Char), l1 <+: l2 →
      startsWithCI pat l1 = true → startsWithCI pat l2 = true := by
  intro pat
  induction pat with
  | nil => intro l1 l2 _ _; rfl
  | cons p ps ih =>
    intro l1 l2 hpre hst
    cases l1 with
    | nil => exact absurd hst (by simp [startsWithCI])
    | cons c cs =>
      obtain ⟨t, rfl⟩ := hpre
      rw [List.cons_append]
      rw [startsWithCI, Bool.and_eq_true] at hst ⊢
      exact ⟨hst.1, ih cs (cs ++ t) ⟨t, rfl⟩ hst.2⟩

/-- The cut text is a prefix of the input. -/
theorem splitReadAlso_isPrefix (l : List Char) : splitReadAlso l <+: l := by
  induction l with
  | nil => exact ⟨[], rfl⟩
  | cons c cs ih =>
    by_cases hst : startsWithCI marker (c :: cs) = true
    · simp only [splitReadAlso, hst, ite_true]
      exact ⟨c :: cs, rfl⟩
    · rw [Bool.not_eq_true] at hst
      simp only [splitReadAlso, hst, Bool.false_eq_true, ite_false]
      obtain ⟨t, ht⟩ := ih
      exact ⟨t, by rw [List.cons_append, ht]⟩

/-- The cut text contains no occurrence of the marker: the cut is at the
first occurrence. -/
theorem containsReadAlso_split_false : ∀ l : List Char, containsReadAlso (splitReadAlso l) = false := by
  intro l
  induction l with
  | nil => rfl
  | cons c cs ih =>
    by_cases hst : startsWithCI marker (c :: cs) = true
    · simp [splitReadAlso, hst, containsReadAlso]
    · rw [Bool.not_eq_true] at hst
      simp only [splitReadAlso, hst, Bool.false_eq_true, ite_false, containsReadAlso]
      rw [ih, Bool.or_false]
      cases hsw : startsWithCI marker (c :: splitReadAlso cs) with
      | false => rfl
      | true =>
        obtain ⟨t, ht⟩ := splitReadAlso_isPrefix cs
        have : startsWithCI marker (c :: cs) = true :=
          startsWithCI_of_isPrefix marker (c :: splitReadAlso cs) (c :: cs)
            ⟨t, by rw [List.cons_append, ht]⟩ hsw
        rw [this] at hst
        exact hst

/-- When the marker occurs, the input splits as the cut text followed by a
suffix that starts with the marker. -/
theorem splitReadAlso_decomp : ∀ l : List Char, containsReadAlso l = true →
    ∃ rest, l = splitReadAlso l ++ rest ∧ startsWithCI marker rest = true := by
  intro l
  induction l with
  | nil => intro h; exact absurd h (by simp [containsReadAlso])
  | cons c cs ih =>
    intro h
    by_cases hst : startsWithCI marker (c :: cs) = true
    · exact ⟨c :: cs, by simp [splitReadAlso, hst], hst⟩
    · have h' : containsReadAlso cs = true := by
        rw [containsReadAlso, Bool.or_eq_true] at h
        exact h.resolve_left hst
      obtain ⟨rest, heq, hm⟩ := ih h'
      rw [Bool.not_eq_true] at hst
      refine ⟨rest, ?_, hm⟩
      simp only [splitReadAlso, hst, Bool.false_eq_true, ite_false, List.cons_append]
      exact congrArg (c :: ·) heq

/-- Claim C7: a body containing the marker phrase (case-insensitively) is
cut at the marker's first occurrence, keeping only the text before it; the
cut prefix holds no occurrence, and the spec's example bodies reduce to the
text before the marker after normalization. -/
theorem c7_read_also_cut :
    (∀ txt : String, containsReadAlso txt.data = true →
      containsReadAlso (splitReadAlso txt.data) = false ∧
        ∃ rest : List Char,
          txt.data = splitReadAlso txt.data ++ rest ∧
          startsWithCI marker rest = true) ∧
    (∀ txt : String, extract_body txt = clean_text ⟨splitReadAlso txt.data⟩) ∧
    extract_body ("preceding text. Читайте також: link text") = ("preceding text.") ∧
    extract_body ("a ЧИТАЙТЕ ТАКОЖ b") = ("a") := by
  refine ⟨?_, fun txt => rfl, by decide, by decide⟩
  intro txt h
  exact ⟨containsReadAlso_split_false txt.data, splitReadAlso_decomp txt.data h⟩

/-- Concrete instance of the cut-at-first-occurrence clause of
`c7_read_also_cut`. -/
theorem c7_read_also_cut_witness :
    containsReadAlso (splitReadAlso (("x Читайте також y").data)) = false :=
  (c7_read_also_cut.1 ("x Читайте також y") (by decide)).1

/-! ### Claims C3 and C9: the aggregator -/

/-- Inserting permutes to consing. -/
theorem insertDesc_perm (x : Row) (l : List Row) : List.Perm (insertDesc x l) (x :: l) := by
  induction l with
  | nil => exact List.Perm.refl _
  | cons y ys ih =>
    rw [insertDesc]
    by_cases hc : y.date_slug ≤ x.date_slug
    · rw [if_pos hc]
    · rw [if_neg hc]
      exact (ih.cons y).trans (List.Perm.swap x y ys)

/-- The sort permutes its input. -/
theorem sortDesc_perm (l : List Row) : List.Perm (sortDesc l) l := by
  induction l with
  | nil => exact List.Perm.refl _
  | cons x xs ih => exact (insertDesc_perm x (sortDesc xs)).trans (ih.cons x)

/-- Inserting preserves descending order. -/
theorem insertDesc_sorted {x : Row} {l : List Row}
    (hl : l.Pairwise (fun a b => b.date_slug ≤ a.date_slug)) :
    (insertDesc x l).Pairwise (fun a b => b.date_slug ≤ a.date_slug) := by
  induction l with
  | nil => simp [insertDesc]
  | cons y ys ih =>
    rw [List.pairwise_cons] at hl
    rw [insertDesc]
    by_cases hc : y.date_slug ≤ x.date_slug
    · rw [if_pos hc, List.pairwise_cons]
      refine ⟨?_, List.pairwise_cons.mpr hl⟩
      intro b hb
      rcases List.mem_cons.mp hb with rfl | hb
      · exact hc
      · exact le_trans (hl.1 b hb) hc
    · rw [if_neg hc, List.pairwise_cons]
      refine ⟨?_, ih hl.2⟩
      intro b hb
      rcases List.mem_cons.mp ((insertDesc_perm x ys).mem_iff.mp hb) with rfl | hb
      · exact le_of_not_le hc
      · exact hl.1 b hb

/-- The sort's output is descending on `date_slug`. -/
theorem sortDesc_sorted (l : List Row) :
    (sortDesc l).Pairwise (fun a b => b.date_slug ≤ a.date_slug) := by
  induction l with
  | nil => exact List.Pairwise.nil
  | cons x xs ih => exact insertDesc_sorted ih

/-- Sorting an already descending list leaves it unchanged. -/
theorem sortDesc_of_sorted : ∀ {l : List Row},
    l.Pairwise (fun a b => b.date_slug ≤ a.date_slug) → sortDesc l = l := by
  intro l
  induction l with
  | nil => intro _; rfl
  | cons x xs ih =>
    intro hl
    rw [List.pairwise_cons] at hl
    rw [sortDesc, ih hl.2]
    cases xs with
    | nil => rfl
    | cons y ys => exact if_pos (hl.1 y (List.mem_cons_self y ys))

/-- The keyed dedupe loop yields pairwise-distinct URLs, none of them
already seen. -/
theorem dedupeByUrlGo_nodup : ∀ (l : List Row) (seen : List String),
    ((dedupeByUrlGo seen l).map Row.url).Nodup ∧
      ∀ r ∈ dedupeByUrlGo seen l, r.url ∉ seen := by
  intro l
  induction l with
  | nil => exact fun _ => ⟨List.nodup_nil, by simp [dedupeByUrlGo]⟩
  | cons r rs ih =>
    intro seen
    rw [dedupeByUrlGo]
    by_cases hr : r.url ∈ seen
    · rw [if_pos hr]
      exact ih seen
    · rw [if_neg hr]
      obtain ⟨ihnd, ihseen⟩ := ih (r.url :: seen)
      refine ⟨?_, ?_⟩
      · rw [List.map_cons, List.nodup_cons]
        refine ⟨?_, ihnd⟩
        intro hmem
        obtain ⟨r', hr', hurl⟩ := List.mem_map.mp hmem
        exact ihseen r' hr' (hurl ▸ List.mem_cons_self _ _)
      · intro r' hr'
        rcases List.mem_cons.mp hr' with rfl | hr'
        · exact hr
        · exact fun hs => ihseen r' hr' (List.mem_cons_of_mem _ hs)

/-- The keyed dedupe loop is the identity on inputs whose URLs are already
pairwise distinct and unseen. -/
theorem dedupeByUrlGo_eq_self : ∀ (l : List Row) (seen : List String),
    (l.map Row.url).Nodup → (∀ r ∈ l, r.url ∉ seen) → dedupeByUrlGo seen l = l := by
  intro l
  induction l with
  | nil => intro seen _ _; rfl
  | cons r rs ih =>
    intro seen hnd hseen
    rw [List.map_cons, List.nodup_cons] at hnd
    have hseen' : ∀ r' ∈ rs, r'.url ∉ (r.url :: seen) := by
      intro r' hr'
      rw [List.mem_cons]
      rintro (hru | hrs)
      · exact hnd.1 (hru ▸ List.mem_map_of_mem Row.url hr')
      · exact hseen r' (List.mem_cons_of_mem r hr') hrs
    rw [dedupeByUrlGo, if_neg (hseen r (List.mem_cons_self r rs)), ih (r.url :: seen) hnd.2 hseen']

/-- Every row the spec-side keyed dedupe keeps was in the input. -/
theorem mem_dedupeByUrlSpec {v : Row} : ∀ {l : List Row}, v ∈ dedupeByUrlSpec l → v ∈ l := by
  intro l
  induction l with
  | nil => exact fun h => h
  | cons u us ih =>
    intro hv
    rcases List.mem_cons.mp hv with h | h
    · exact List.mem_cons.mpr (Or.inl h)
    · exact List.mem_cons.mpr (Or.inr (ih (List.mem_of_mem_filter h)))

/-- URL-keyed filtering commutes with the spec-side keyed dedupe. -/
theorem filter_dedupeByUrlSpec (q : String → Bool) :
    ∀ l : List Row, (dedupeByUrlSpec l).filter (fun x => q x.url) =
      dedupeByUrlSpec (l.filter (fun x => q x.url)) := by
  intro l
  induction l with
  | nil => rfl
  | cons u us ih =>
    by_cases hp : q u.url = true
    · simp only [dedupeByUrlSpec, List.filter_cons, hp, ite_true]
      rw [filter_swap, ih]
    · rw [Bool.not_eq_true] at hp
      simp only [dedupeByUrlSpec, List.filter_cons, hp, Bool.false_eq_true, ite_false]
      rw [filter_swap, ih, List.filter_eq_self.mpr]
      intro a ha
      have hap : q a.url = true := (List.mem_filter.mp (mem_dedupeByUrlSpec ha)).2
      have : a.url ≠ u.url := fun hau => by rw [hau, hp] at hap; exact Bool.false_ne_true hap
      exact decide_eq_true this

/-- The keyed dedupe loop equals the spec-side keyed dedupe of the rows
whose URL is not yet seen. -/
theorem dedupeByUrlGo_eq_spec (l : List Row) :
    ∀ seen : List String,
      dedupeByUrlGo seen l = dedupeByUrlSpec (l.filter (fun r => decide (r.url ∉ seen))) := by
  induction l with
  | nil => intro seen; rfl
  | cons u us ih =>
    intro seen
    by_cases hu : u.url ∈ seen
    · have hdec : decide (u.url ∉ seen) = false := by simp [hu]
      simp only [dedupeByUrlGo, if_pos hu, List.filter_cons, hdec, Bool.false_eq_true, ite_false]
      exact ih seen
    · have hdec : decide (u.url ∉ seen) = true := by simp [hu]
      have hff : (us.filter (fun r => decide (r.url ∉ seen))).filter
          (fun x => decide (x.url ≠ u.url)) =
          us.filter (fun r => decide (r.url ∉ (u.url :: seen))) := by
        rw [List.filter_filter]
        refine List.filter_congr ?_
        intro v _
        by_cases hvu : v.url = u.url <;> by_cases hvs : v.url ∈ seen <;> simp [hvu, hvs]
      simp only [dedupeByUrlGo, if_neg hu, List.filter_cons, hdec, ite_true, dedupeByUrlSpec]
      rw [ih (u.url :: seen), filter_dedupeByUrlSpec (fun v => decide (v ≠ u.url)), hff]

/-- A list has a dated record iff filtering for dates is non-empty. -/
theorem any_hasDate_iff_filter_ne (l : List Row) :
    l.any hasDate = true ↔ l.filter hasDate ≠ [] := by
  constructor
  · intro h hnil
    obtain ⟨x, hx, hpx⟩ := List.any_eq_true.mp h
    rw [List.filter_eq_nil_iff] at hnil
    exact hnil x hx hpx
  · intro h
    rcases hval : l.filter hasDate with _ | ⟨x, xs⟩
    · exact absurd hval h
    · have hx : x ∈ l.filter hasDate := hval ▸ List.mem_cons_self x xs
      exact List.any_eq_true.mpr ⟨x, List.mem_of_mem_filter hx, List.of_mem_filter hx⟩

/-- Claim C3: the aggregator equals its specification — deduplicate by URL
keeping first occurrences; if at least one record is dated, sort the dated
records by date descending, truncate to the target count and discard the
undated ones; otherwise truncate the deduplicated records in discovery
order. -/
theorem c3_aggregate_matches_spec (rows : List Row) : aggregate rows = aggregate_spec rows := by
  have hded : dedupeByUrl rows = dedupeByUrlSpec rows := by
    rw [dedupeByUrl, dedupeByUrlGo_eq_spec rows [], List.filter_eq_self.mpr]
    intro a _
    simp
  simp only [aggregate, aggregate_spec, hded]
  by_cases h : (dedupeByUrlSpec rows).filter hasDate = []
  · rw [if_pos h, if_neg]
    intro hany
    exact (any_hasDate_iff_filter_ne _).mp hany h
  · rw [if_neg h, if_pos ((any_hasDate_iff_filter_ne _).mpr h)]

/-- Claim C9: the aggregator is idempotent — aggregating its own output
yields the same final list. -/
theorem c9_aggregate_idempotent (rows : List Row) :
    aggregate (aggregate rows) = aggregate rows := by
  have hnodup : ((dedupeByUrl rows).map Row.url).Nodup := (dedupeByUrlGo_nodup rows []).1
  by_cases hany : (dedupeByUrl rows).any hasDate = true
  · have hagg : aggregate rows = (sortDesc ((dedupeByUrl rows).filter hasDate)).take DAYS_BACK := by
      simp only [aggregate, if_pos hany]
    rw [hagg]
    set r1 := (sortDesc ((dedupeByUrl rows).filter hasDate)).take DAYS_BACK with hr1
    have hmem : ∀ x ∈ r1, x ∈ sortDesc ((dedupeByUrl rows).filter hasDate) := by
      intro x hx
      rw [hr1] at hx
      exact List.mem_of_mem_take hx
    have hdated : ∀ x ∈ r1, hasDate x = true := fun x hx =>
      List.of_mem_filter ((sortDesc_perm _).mem_iff.mp (hmem x hx))
    have h1 : (((dedupeByUrl rows).filter hasDate).map Row.url).Nodup :=
      (List.Sublist.map Row.url (List.filter_sublist _)).nodup hnodup
    have h2 : ((sortDesc ((dedupeByUrl rows).filter hasDate)).map Row.url).Nodup :=
      ((sortDesc_perm _).map Row.url).nodup_iff.mpr h1
    have hr1nodup : (r1.map Row.url).Nodup := by
      rw [hr1]
      exact (List.Sublist.map Row.url (List.take_sublist _ _)).nodup h2
    have hr1sorted : r1.Pairwise (fun a b => b.date_slug ≤ a.date_slug) := by
      rw [hr1]
      exact List.Pairwise.sublist (List.take_sublist _ _) (sortDesc_sorted _)
    have hr1len : r1.length ≤ DAYS_BACK := by
      rw [hr1]
      exact List.length_take_le _ _
    have hded1 : dedupeByUrl r1 = r1 :=
      dedupeByUrlGo_eq_self r1 [] hr1nodup (fun r _ => List.not_mem_nil _)
    have hne : r1 ≠ [] := by
      have hflen : 0 < ((dedupeByUrl rows).filter hasDate).length :=
        List.length_pos.mpr ((any_hasDate_iff_filter_ne _).mp hany)
      have hslen : 0 < (sortDesc ((dedupeByUrl rows).filter hasDate)).length := by
        rw [(sortDesc_perm _).length_eq]
        exact hflen
      intro hcon
      rw [hr1] at hcon
      have hlen := congrArg List.length hcon
      rw [List.length_take, List.length_nil] at hlen
      have h30 : 0 < DAYS_BACK := by decide
      omega
    have hany1 : r1.any hasDate = true := by
      rcases hr0 : r1 with _ | ⟨x, xs⟩
      · exact absurd hr0 hne
      · have hx : x ∈ r1 := by rw [hr0]; exact List.mem_cons_self x xs
        rw [← hr0]
        exact List.any_eq_true.mpr ⟨x, hx, hdated x hx⟩
    have hfil1 : r1.filter hasDate = r1 := List.filter_eq_self.mpr hdated
    simp only [aggregate, hded1, hfil1, hany1, if_true]
    rw [sortDesc_of_sorted hr1sorted, List.take_of_length_le hr1len]
  · rw [Bool.not_eq_true] at hany
    have hagg : aggregate rows = (dedupeByUrl rows).take DAYS_BACK := by
      simp only [aggregate, hany, Bool.false_eq_true, if_false]
    rw [hagg]
    set r1 := (dedupeByUrl rows).take DAYS_BACK with hr1
    have hr1nodup : (r1.map Row.url).Nodup := by
      rw [hr1]
      exact (List.Sublist.map Row.url (List.take_sublist _ _)).nodup hnodup
    have hded1 : dedupeByUrl r1 = r1 :=
      dedupeByUrlGo_eq_self r1 [] hr1nodup (fun r _ => List.not_mem_nil _)
    have hnone : r1.any hasDate = false := by
      cases hval : r1.any hasDate with
      | false => rfl
      | true =>
        obtain ⟨x, hx, hpx⟩ := List.any_eq_true.mp hval
        have hxd : x ∈ dedupeByUrl rows := by
          rw [hr1] at hx
          exact List.mem_of_mem_take hx
        have hc : (dedupeByUrl rows).any hasDate = true := List.any_eq_true.mpr ⟨x, hxd, hpx⟩
        rw [hc] at hany
        exact hany
    simp only [aggregate, hded1, hnone, Bool.false_eq_true, if_false]
    rw [hr1, List.take_take, Nat.min_self]

/-! ### Claims C1, C2, C5: the crawl frontier -/

/-- The frontier invariant of claim C1: no URL is both visited and pending,
the pending queue holds no duplicates, the visited set holds no duplicates,
and the fetch trace is duplicate-free and covered by the visited set. -/
def Inv (s : CrawlState) : Prop :=
  (∀ u ∈ s.visited, u ∉ s.queue) ∧ s.queue.Nodup ∧ s.visited.Nodup ∧
    s.fetched.Nodup ∧ (∀ u ∈ s.fetched, u ∈ s.visited)

instance (s : CrawlState) : Decidable (Inv s) := by
  unfold Inv
  infer_instance

/-- One unfolding of the crawl loop. -/
theorem crawl_eq (oracle : Oracle) (s : CrawlState) :
    crawl oracle s = if crawlGuard s then crawl oracle (crawlStep oracle s) else s := by
  rw [crawl]
  exact dite_eq_ite

/-- Any property preserved by guarded steps is preserved by the whole loop. -/
theorem crawl_preserve (oracle : Oracle) (P : CrawlState → Prop)
    (hstep : ∀ s, crawlGuard s → P s → P (crawlStep oracle s))
    (s : CrawlState) (hP : P s) : P (crawl oracle s) := by
  rw [crawl_eq]
  by_cases h : crawlGuard s
  · rw [if_pos h]
    exact crawl_preserve oracle P hstep (crawlStep oracle s) (hstep s h hP)
  · rw [if_neg h]
    exact hP
termination_by (MAX_PAGES - s.visited.length, s.queue.length)
decreasing_by
  rcases crawlStep_measure oracle s h with hvis | ⟨hvis, hqueue⟩
  · have hcap := h.2.2
    exact Prod.Lex.left _ _ (by rw [hvis]; omega)
  · rw [hvis]
    exact Prod.Lex.right _ hqueue

/-- The loop only returns once its guard fails: it stops exactly when the
queue is empty or a cap is reached. -/
theorem crawl_stops (oracle : Oracle) (s : CrawlState) : ¬ crawlGuard (crawl oracle s) := by
  rw [crawl_eq]
  by_cases h : crawlGuard s
  · rw [if_pos h]
    exact crawl_stops oracle (crawlStep oracle s)
  · rw [if_neg h]
    exact h
termination_by (MAX_PAGES - s.visited.length, s.queue.length)
decreasing_by
  rcases crawlStep_measure oracle s h with hvis | ⟨hvis, hqueue⟩
  · have hcap := h.2.2
    exact Prod.Lex.left _ _ (by rw [hvis]; omega)
  · rw [hvis]
    exact Prod.Lex.right _ hqueue

/-- Enqueueing links that are neither visited nor pending preserves
disjointness from the visited set and queue distinctness. -/
theorem enqueue_preserve (links : List String) : ∀ (visited q : List String),
    (∀ u ∈ visited, u ∉ q) → q.Nodup →
    (∀ u ∈ visited, u ∉ enqueue visited q links) ∧ (enqueue visited q links).Nodup := by
  induction links with
  | nil => exact fun visited q hd hn => ⟨hd, hn⟩
  | cons u us ih =>
    intro visited q hd hn
    have heq : enqueue visited q (u :: us) =
        enqueue visited (if u ∈ visited ∨ u ∈ q then q else q ++ [u]) us := rfl
    rw [heq]
    by_cases hc : u ∈ visited ∨ u ∈ q
    · rw [if_pos hc]
      exact ih visited q hd hn
    · rw [if_neg hc]
      push_neg at hc
      refine ih visited (q ++ [u]) ?_ ?_
      · intro v hv
        rw [List.mem_append, List.mem_singleton]
        rintro (hvq | rfl)
        · exact hd v hv hvq
        · exact hc.1 hv
      · simp [List.nodup_append, hn, hc.2]

/-- One guarded iteration preserves the frontier invariant. -/
theorem crawlStep_inv (oracle : Oracle) (s : CrawlState) (h : Inv s) :
    Inv (crawlStep oracle s) := by
  obtain ⟨hdisj, hqnd, hvnd, hfnd, hfv⟩ := h
  rcases hs : s.queue with _ | ⟨url, rest⟩
  · have hstep : crawlStep oracle s = s := by simp [crawlStep, hs]
    rw [hstep]
    exact ⟨hdisj, hqnd, hvnd, hfnd, hfv⟩
  · by_cases hv : url ∈ s.visited
    · have hstep : crawlStep oracle s = { s with queue := rest } := by
        simp [crawlStep, hs, hv]
      rw [hstep]
      have hqnd' : rest.Nodup := by
        rw [hs] at hqnd
        exact hqnd.of_cons
      refine ⟨?_, hqnd', hvnd, hfnd, hfv⟩
      intro u hu hr
      have hnq := hdisj u hu
      rw [hs] at hnq
      exact hnq (List.mem_cons_of_mem _ hr)
    · have hrestnd : rest.Nodup := by
        rw [hs] at hqnd
        exact hqnd.of_cons
      have hvnd' : (url :: s.visited).Nodup := List.nodup_cons.mpr ⟨hv, hvnd⟩
      have hfnd' : (s.fetched ++ [url]).Nodup := by
        have hnf : url ∉ s.fetched := fun hf => hv (hfv url hf)
        simp [List.nodup_append, hfnd, hnf]
      have hfv' : ∀ u ∈ s.fetched ++ [url], u ∈ url :: s.visited := by
        intro u hu
        rcases List.mem_append.mp hu with hu | hu
        · exact List.mem_cons_of_mem _ (hfv u hu)
        · rw [List.mem_singleton] at hu
          exact hu ▸ List.mem_cons_self _ _
      have hdisj' : ∀ u ∈ url :: s.visited, u ∉ rest := by
        intro u hu
        rcases List.mem_cons.mp hu with rfl | hu
        · rw [hs] at hqnd
          exact (List.nodup_cons.mp hqnd).1
        · intro hr
          have hnq := hdisj u hu
          rw [hs] at hnq
          exact hnq (List.mem_cons_of_mem _ hr)
      cases ho : oracle url with
      | none =>
        have hstep : crawlStep oracle s =
            { s with visited := url :: s.visited, queue := rest,
                     fetched := s.fetched ++ [url] } := by
          simp [crawlStep, hs, hv, ho]
        rw [hstep]
        exact ⟨hdisj', hrestnd, hvnd', hfnd', hfv'⟩
      | some page =>
        have hstep : crawlStep oracle s =
            { rows := s.rows ++ [mkRow url page], visited := url :: s.visited,
              queue := enqueue (url :: s.visited) rest page.links,
              fetched := s.fetched ++ [url] } := by
          simp [crawlStep, hs, hv, ho]
        rw [hstep]
        obtain ⟨hd2, hn2⟩ := enqueue_preserve page.links (url :: s.visited) rest hdisj' hrestnd
        exact ⟨hd2, hn2, hvnd', hfnd', hfv'⟩

/-- Claim C1: the frontier invariant — visited and pending disjoint, queue
duplicate-free, every URL visited and fetched at most once — holds
initially and is preserved by every loop iteration, hence by the whole
crawl. -/
theorem c1_frontier_invariant :
    Inv initState ∧
    (∀ (oracle : Oracle) (s : CrawlState), Inv s → Inv (crawlStep oracle s)) ∧
    (∀ (oracle : Oracle) (s : CrawlState), Inv s → Inv (crawl oracle s)) := by
  refine ⟨by decide, crawlStep_inv, ?_⟩
  intro oracle s h
  exact crawl_preserve oracle Inv (fun s _ hP => crawlStep_inv oracle s hP) s h

/-- Concrete instance of `c1_frontier_invariant`: one step from the initial
state keeps the invariant. -/
theorem c1_frontier_invariant_witness :
    Inv (crawlStep (fun _ => none) initState) :=
  c1_frontier_invariant.2.1 (fun _ => none) initState (by decide)

/-- A guarded iteration adds at most one row and one visited URL. -/
theorem crawlStep_bounds (oracle : Oracle) (s : CrawlState) :
    (crawlStep oracle s).rows.length ≤ s.rows.length + 1 ∧
      (crawlStep oracle s).visited.length ≤ s.visited.length + 1 := by
  rcases hs : s.queue with _ | ⟨url, rest⟩
  · simp [crawlStep, hs]
  · by_cases hv : url ∈ s.visited
    · simp [crawlStep, hs, hv]
    · cases ho : oracle url <;> simp [crawlStep, hs, hv, ho]

/-- Claim C2: the crawl terminates with at most the target count of output
records and at most the safety cap of visited URLs, and it stops exactly
when the queue empties or one of the two caps is reached; the target count
is 30 and the safety cap twice that. -/
theorem c2_crawl_termination_caps (oracle : Oracle) :
    DAYS_BACK = 30 ∧ MAX_PAGES = 2 * DAYS_BACK ∧
    (crawl oracle initState).rows.length ≤ DAYS_BACK ∧
    (crawl oracle initState).visited.length ≤ MAX_PAGES ∧
    ((crawl oracle initState).queue = [] ∨
      (crawl oracle initState).rows.length = DAYS_BACK ∨
      (crawl oracle initState).visited.length = MAX_PAGES) := by
  have hP : (crawl oracle initState).rows.length ≤ DAYS_BACK ∧
      (crawl oracle initState).visited.length ≤ MAX_PAGES := by
    refine crawl_preserve oracle
      (fun t => t.rows.length ≤ DAYS_BACK ∧ t.visited.length ≤ MAX_PAGES) ?_ initState (by decide)
    intro t hg _
    obtain ⟨hb1, hb2⟩ := crawlStep_bounds oracle t
    obtain ⟨-, hr, hv⟩ := hg
    omega
  have hstop := crawl_stops oracle initState
  rw [crawlGuard] at hstop
  refine ⟨rfl, rfl, hP.1, hP.2, ?_⟩
  by_cases hq : (crawl oracle initState).queue = []
  · exact Or.inl hq
  · by_cases hr : (crawl oracle initState).rows.length < DAYS_BACK
    · refine Or.inr (Or.inr ?_)
      have hv : ¬ (crawl oracle initState).visited.length < MAX_PAGES :=
        fun hv => hstop ⟨hq, hr, hv⟩
      omega
    · refine Or.inr (Or.inl ?_)
      have := hP.1
      omega

/-- Every step keeps previously visited URLs visited. -/
theorem crawlStep_visited_mono (oracle : Oracle) (s : CrawlState) (u : String)
    (h : u ∈ s.visited) : u ∈ (crawlStep oracle s).visited := by
  rcases hs : s.queue with _ | ⟨url, rest⟩
  · simpa [crawlStep, hs] using h
  · by_cases hv : url ∈ s.visited
    · simpa [crawlStep, hs, hv] using h
    · cases ho : oracle url <;>
        simpa [crawlStep, hs, hv, ho] using Or.inr h

/-- Each step either leaves the rows alone or appends one fetched row. -/
theorem crawlStep_rows (oracle : Oracle) (s : CrawlState) :
    (crawlStep oracle s).rows = s.rows ∨
      ∃ url page, oracle url = some page ∧
        (crawlStep oracle s).rows = s.rows ++ [mkRow url page] := by
  rcases hs : s.queue with _ | ⟨url, rest⟩
  · exact Or.inl (by simp [crawlStep, hs])
  · by_cases hv : url ∈ s.visited
    · exact Or.inl (by simp [crawlStep, hs, hv])
    · cases ho : oracle url with
      | none => exact Or.inl (by simp [crawlStep, hs, hv, ho])
      | some page => exact Or.inr ⟨url, page, ho, by simp [crawlStep, hs, hv, ho]⟩

/-- Every row the crawl emits beyond its starting rows comes from a
successful fetch of its URL. -/
theorem crawl_rows_from_fetch (oracle : Oracle) (s : CrawlState) :
    ∀ r ∈ (crawl oracle s).rows, r ∈ s.rows ∨ ∃ p, oracle r.url = some p := by
  refine crawl_preserve oracle
    (fun t => ∀ r ∈ t.rows, r ∈ s.rows ∨ ∃ p, oracle r.url = some p) ?_ s (fun r hr => Or.inl hr)
  intro t _ hP r hr
  rcases crawlStep_rows oracle t with heq | ⟨url, page, ho, heq⟩
  · rw [heq] at hr
    exact hP r hr
  · rw [heq] at hr
    rcases List.mem_append.mp hr with hr | hr
    · exact hP r hr
    · rw [List.mem_singleton] at hr
      subst hr
      exact Or.inr ⟨page, ho⟩

/-- Claim C5: a failed fetch leaves the URL marked visited with no output
row and the loop moves on; visited URLs stay visited (never retried); every
emitted row stems from a successful fetch; and the export is produced from
whatever rows the crawl gathered, for every fetch oracle. -/
theorem c5_fetch_failure (oracle : Oracle) :
    (∀ (s : CrawlState) (url : String) (rest : List String),
      s.queue = url :: rest → url ∉ s.visited → oracle url = none →
      crawlStep oracle s =
        { s with visited := url :: s.visited, queue := rest,
                 fetched := s.fetched ++ [url] }) ∧
    (∀ (s : CrawlState) (u : String), u ∈ s.visited → u ∈ (crawl oracle s).visited) ∧
    (∀ (s : CrawlState) (r : Row), r ∈ (crawl oracle s).rows →
      r ∈ s.rows ∨ ∃ p, oracle r.url = some p) ∧
    run_export oracle = aggregate (crawl oracle initState).rows := by
  refine ⟨?_, ?_, ?_, rfl⟩
  · intro s url rest hs hv ho
    simp [crawlStep, hs, hv, ho]
  · intro s u h
    exact crawl_preserve oracle (fun t => u ∈ t.visited)
      (fun t _ hP => crawlStep_visited_mono oracle t u hP) s h
  · intro s r h
    exact crawl_rows_from_fetch oracle s r h

/-- Concrete instances of `c5_fetch_failure`: the failed-fetch step on a
one-element queue, visited persistence, and row provenance. -/
theorem c5_fetch_failure_witness :
    crawlStep (fun _ => none) (CrawlState.mk [] [] [("u")] []) =
      CrawlState.mk [] [("u")] [] [("u")] ∧
    ("a") ∈ (crawl (fun _ => none) (CrawlState.mk [] [("a")] [] [])).visited ∧
    (Row.mk ("r") ("t") ("x") ("") ∈ [Row.mk ("r") ("t") ("x") ("")] ∨
      ∃ p, (fun _ => (none : Option Page)) (Row.mk ("r") ("t") ("x") ("")).url = some p) := by
  refine ⟨?_, ?_, ?_⟩
  · exact (c5_fetch_failure (fun _ => none)).1 (CrawlState.mk [] [] [("u")] []) ("u") [] rfl
      (by decide) rfl
  · exact (c5_fetch_failure (fun _ => none)).2.1 (CrawlState.mk [] [("a")] [] []) ("a") (by decide)
  · refine (c5_fetch_failure (fun _ => none)).2.2.1
      (CrawlState.mk [Row.mk ("r") ("t") ("x") ("")] [] [] []) (Row.mk ("r") ("t") ("x") ("")) ?_
    rw [crawl_eq, if_neg (fun hg => hg.1 rfl)]
    exact List.mem_cons_self _ _

/-! ### Claim C8: whitespace normalization -/

/-- No two adjacent characters are both spaces-or-tabs: horizontal runs
have been collapsed. -/
def noHTPair (a b : Char) : Prop := ¬(isHT a = true ∧ isHT b = true)

/-- No whitespace character immediately precedes a newline: in particular
there are no blank lines and no trailing horizontal space on a line. -/
def noSpaceBeforeNL (a b : Char) : Prop := b = '\n' → isPySpace a = false

theorem isPySpace_of_isHT {a : Char} (h : isHT a = true) : isPySpace a = true := by
  rw [isHT, Bool.or_eq_true] at h
  rcases h with h | h <;> rw [eq_of_beq h] <;> decide

/-- Collapsing leaves no tab. -/
theorem collapseHTAux_no_tab : ∀ (l : List Char) (b : Bool), '\t' ∉ collapseHTAux b l := by
  intro l
  induction l with
  | nil => intro b; simp [collapseHTAux]
  | cons c cs ih =>
    intro b
    by_cases hc : isHT c = true
    · cases b with
      | false =>
        have hstep : collapseHTAux false (c :: cs) = ' ' :: collapseHTAux true cs := by
          simp [collapseHTAux, hc]
        rw [hstep]
        intro hmem
        rcases List.mem_cons.mp hmem with heq | hm
        · exact absurd heq (by decide)
        · exact ih true hm
      | true =>
        have hstep : collapseHTAux true (c :: cs) = collapseHTAux true cs := by
          simp [collapseHTAux, hc]
        rw [hstep]
        exact ih true
    · rw [Bool.not_eq_true] at hc
      simp only [collapseHTAux, hc, Bool.false_eq_true, if_false]
      intro hmem
      rcases List.mem_cons.mp hmem with heq | hm
      · rw [← heq] at hc
        exact absurd hc (by decide)
      · exact ih false hm

/-- While inside a run, the next emitted character is not horizontal
whitespace. -/
theorem collapseHTAux_head_true : ∀ (l : List Char) (c : Char),
    (collapseHTAux true l).head? = some c → isHT c = false := by
  intro l
  induction l with
  | nil => intro c h; simp [collapseHTAux] at h
  | cons c0 cs ih =>
    intro c h
    by_cases hc : isHT c0 = true
    · have hstep : collapseHTAux true (c0 :: cs) = collapseHTAux true cs := by
        simp [collapseHTAux, hc]
      rw [hstep] at h
      exact ih c h
    · rw [Bool.not_eq_true] at hc
      simp only [collapseHTAux, hc, Bool.false_eq_true, if_false, List.head?_cons,
        Option.some_inj] at h
      rw [← h]
      exact hc

/-- Collapsing leaves no adjacent pair of horizontal whitespace. -/
theorem collapseHTAux_chain : ∀ (l : List Char) (b : Bool),
    List.Chain' noHTPair (collapseHTAux b l) := by
  intro l
  induction l with
  | nil => intro b; simp [collapseHTAux]
  | cons c0 cs ih =>
    intro b
    by_cases hc : isHT c0 = true
    · cases b with
      | true =>
        have hstep : collapseHTAux true (c0 :: cs) = collapseHTAux true cs := by
          simp [collapseHTAux, hc]
        rw [hstep]
        exact ih true
      | false =>
        have hstep : collapseHTAux false (c0 :: cs) = ' ' :: collapseHTAux true cs := by
          simp [collapseHTAux, hc]
        rw [hstep]
        rw [List.chain'_cons']
        refine ⟨?_, ih true⟩
        intro y hy hpair
        rw [Option.mem_def] at hy
        rw [collapseHTAux_head_true cs y hy] at hpair
        exact Bool.false_ne_true hpair.2
    · rw [Bool.not_eq_true] at hc
      simp only [collapseHTAux, hc, Bool.false_eq_true, if_false]
      rw [List.chain'_cons']
      refine ⟨?_, ih false⟩
      intro y _ hpair
      rw [hc] at hpair
      exact Bool.false_ne_true hpair.1

/-- The text after a run's last newline has none. -/
theorem afterLastNL_no_nl (l : List Char) : '\n' ∉ afterLastNL l := by
  intro h
  rw [afterLastNL, List.mem_reverse] at h
  have := List.mem_takeWhile_imp h
  simp at this

/-- The text after a run's last newline is a suffix of the run. -/
theorem afterLastNL_suffix (l : List Char) : afterLastNL l <:+ l := by
  rw [afterLastNL]
  have h1 : l.reverse.takeWhile (fun c => c != '\n') <+: l.reverse :=
    List.takeWhile_prefix _
  have h2 := List.reverse_suffix.mpr h1
  rwa [List.reverse_reverse] at h2

/-- Rewriting a run only keeps run characters or introduces a newline. -/
theorem mem_flushRun {c : Char} {run : List Char} (h : c ∈ flushRun run) :
    c = '\n' ∨ c ∈ run := by
  rw [flushRun] at h
  by_cases hnl : run.tail.contains '\n' = true
  · rw [if_pos hnl] at h
    rcases List.mem_cons.mp h with heq | h
    · exact Or.inl heq
    · exact Or.inr ((afterLastNL_suffix run).subset h)
  · rw [if_neg hnl] at h
    exact Or.inr h

/-- A newline-free text vacuously has no whitespace before a newline. -/
theorem chain3_of_no_nl : ∀ l : List Char, '\n' ∉ l → List.Chain' noSpaceBeforeNL l := by
  intro l
  induction l with
  | nil => intro _; exact List.chain'_nil
  | cons c cs ih =>
    intro h
    rw [List.chain'_cons']
    refine ⟨?_, ih (fun hm => h (List.mem_cons_of_mem _ hm))⟩
    intro y hy heq
    rw [Option.mem_def] at hy
    rw [heq] at hy
    exact absurd (List.mem_cons_of_mem _ (List.mem_of_mem_head? hy)) h

/-- A rewritten run has no whitespace before any of its newlines. -/
theorem flushRun_chain3 (run : List Char) : List.Chain' noSpaceBeforeNL (flushRun run) := by
  rw [flushRun]
  by_cases hnl : run.tail.contains '\n' = true
  · rw [if_pos hnl, List.chain'_cons']
    refine ⟨?_, chain3_of_no_nl _ (afterLastNL_no_nl run)⟩
    intro y hy heq
    rw [Option.mem_def] at hy
    rw [heq] at hy
    exact absurd (List.mem_of_mem_head? hy) (afterLastNL_no_nl run)
  · rw [if_neg hnl]
    cases run with
    | nil => exact List.chain'_nil
    | cons r0 rt =>
      have hno : '\n' ∉ rt := by
        intro hm
        exact hnl (List.contains_iff_exists_mem_beq.mpr ⟨'\n', hm, by simp⟩)
      rw [List.chain'_cons']
      refine ⟨?_, chain3_of_no_nl rt hno⟩
      intro y hy heq
      rw [Option.mem_def] at hy
      rw [heq] at hy
      exact absurd (List.mem_of_mem_head? hy) hno

/-- Rewriting a run preserves the absence of adjacent horizontal pairs. -/
theorem flushRun_chain2 {run : List Char} (hrun : List.Chain' noHTPair run) :
    List.Chain' noHTPair (flushRun run) := by
  rw [flushRun]
  by_cases hnl : run.tail.contains '\n' = true
  · rw [if_pos hnl, List.chain'_cons']
    refine ⟨?_, hrun.suffix (afterLastNL_suffix run)⟩
    intro y _ hpair
    exact absurd hpair.1 (by decide)
  · rw [if_neg hnl]
    exact hrun

/-- The newline squeeze leaves no tab. -/
theorem squeezeNLAux_no_tab : ∀ (l pending : List Char),
    '\t' ∉ pending → '\t' ∉ l → '\t' ∉ squeezeNLAux pending l := by
  intro l
  induction l with
  | nil =>
    intro pending hp _
    intro hmem
    have hmem2 : '\t' ∈ flushRun pending := hmem
    rcases mem_flushRun hmem2 with heq | hmem2
    · exact absurd heq (by decide)
    · exact hp hmem2
  | cons c cs ih =>
    intro pending hp hl
    rw [List.mem_cons] at hl
    push_neg at hl
    simp only [squeezeNLAux]
    by_cases hsp : isPySpace c = true
    · rw [if_pos hsp]
      refine ih (pending ++ [c]) ?_ hl.2
      intro hm
      rcases List.mem_append.mp hm with hm | hm
      · exact hp hm
      · rw [List.mem_singleton] at hm
        exact hl.1 hm
    · rw [if_neg hsp]
      intro hmem
      rcases List.mem_append.mp hmem with hm | hm
      · rcases mem_flushRun hm with heq | hm2
        · exact absurd heq (by decide)
        · exact hp hm2
      · rcases List.mem_cons.mp hm with heq | hm2
        · exact hl.1 heq
        · exact ih [] (List.not_mem_nil _) hl.2 hm2

/-- The newline squeeze leaves no whitespace before a newline. -/
theorem squeezeNLAux_chain3 : ∀ (l pending : List Char),
    List.Chain' noSpaceBeforeNL (squeezeNLAux pending l) := by
  intro l
  induction l with
  | nil => intro pending; exact flushRun_chain3 pending
  | cons c cs ih =>
    intro pending
    simp only [squeezeNLAux]
    by_cases hsp : isPySpace c = true
    · rw [if_pos hsp]
      exact ih (pending ++ [c])
    · rw [if_neg hsp]
      rw [Bool.not_eq_true] at hsp
      rw [List.chain'_append]
      refine ⟨flushRun_chain3 pending, ?_, ?_⟩
      · rw [List.chain'_cons']
        exact ⟨fun y _ _ => hsp, ih []⟩
      · intro x _ y hy heq
        rw [Option.mem_def, List.head?_cons, Option.some_inj] at hy
        rw [hy, heq] at hsp
        exact absurd hsp (by decide)

/-- The newline squeeze preserves the absence of adjacent horizontal
pairs. -/
theorem squeezeNLAux_chain2 : ∀ (l pending : List Char),
    List.Chain' noHTPair (pending ++ l) → List.Chain' noHTPair (squeezeNLAux pending l) := by
  intro l
  induction l with
  | nil =>
    intro pending h
    rw [List.append_nil] at h
    exact flushRun_chain2 h
  | cons c cs ih =>
    intro pending h
    simp only [squeezeNLAux]
    by_cases hsp : isPySpace c = true
    · rw [if_pos hsp]
      refine ih (pending ++ [c]) ?_
      rw [List.append_assoc, List.singleton_append]
      exact h
    · rw [if_neg hsp]
      obtain ⟨h1, h2, -⟩ := List.chain'_append.mp h
      rw [List.chain'_append]
      refine ⟨flushRun_chain2 h1, ?_, ?_⟩
      · rw [List.chain'_cons']
        refine ⟨?_, ih [] (by rw [List.nil_append]; exact (List.chain'_cons'.mp h2).2)⟩
        intro y _ hpair
        exact hsp (isPySpace_of_isHT hpair.1)
      · intro x _ y hy hpair
        rw [Option.mem_def, List.head?_cons, Option.some_inj] at hy
        refine hsp ?_
        rw [hy]
        exact isPySpace_of_isHT hpair.2

/-- Stripping yields an infix of the input. -/
theorem pyStrip_infix (l : List Char) : pyStrip l <:+: l := by
  rw [pyStrip]
  have h1 : l.dropWhile isPySpace <:+ l := List.dropWhile_suffix _
  have h2 : (l.dropWhile isPySpace).reverse.dropWhile isPySpace <:+
      (l.dropWhile isPySpace).reverse := List.dropWhile_suffix _
  have h3 := List.reverse_prefix.mpr h2
  rw [List.reverse_reverse] at h3
  exact h3.isInfix.trans h1.isInfix

/-- The stripped text starts with a non-whitespace character. -/
theorem pyStrip_head (l : List Char) {c : Char} (h : (pyStrip l).head? = some c) :
    isPySpace c = false := by
  have h2 : (l.dropWhile isPySpace).reverse.dropWhile isPySpace <:+
      (l.dropWhile isPySpace).reverse := List.dropWhile_suffix _
  have h3 := List.reverse_prefix.mpr h2
  rw [List.reverse_reverse] at h3
  obtain ⟨t, ht⟩ := h3
  have hhd : (l.dropWhile isPySpace).head? = some c := by
    rw [← ht, List.head?_append]
    rw [pyStrip] at h
    rw [h]
    rfl
  have hd := List.head?_dropWhile_not isPySpace l
  rw [hhd] at hd
  exact hd

/-- The stripped text ends with a non-whitespace character. -/
theorem pyStrip_getLast (l : List Char) {c : Char} (h : (pyStrip l).getLast? = some c) :
    isPySpace c = false := by
  rw [pyStrip, List.getLast?_reverse] at h
  have hd := List.head?_dropWhile_not isPySpace (l.dropWhile isPySpace).reverse
  rw [h] at hd
  exact hd

/-- The normalization guarantees of `clean_text`, for every input. -/
theorem clean_text_props (t : String) :
    '\t' ∉ (clean_text t).data ∧
    List.Chain' noHTPair (clean_text t).data ∧
    List.Chain' noSpaceBeforeNL (clean_text t).data ∧
    (∀ c, (clean_text t).data.head? = some c → isPySpace c = false) ∧
    (∀ c, (clean_text t).data.getLast? = some c → isPySpace c = false) := by
  have hnt : '\t' ∉ squeezeNL (collapseHT t.data) :=
    squeezeNLAux_no_tab (collapseHT t.data) [] (List.not_mem_nil _)
      (collapseHTAux_no_tab t.data false)
  have hc2 : List.Chain' noHTPair (squeezeNL (collapseHT t.data)) :=
    squeezeNLAux_chain2 (collapseHT t.data) []
      (by rw [List.nil_append]; exact collapseHTAux_chain t.data false)
  have hc3 : List.Chain' noSpaceBeforeNL (squeezeNL (collapseHT t.data)) :=
    squeezeNLAux_chain3 (collapseHT t.data) []
  have hinf : (clean_text t).data <:+: squeezeNL (collapseHT t.data) :=
    pyStrip_infix _
  refine ⟨fun hm => hnt (hinf.subset hm), hc2.infix hinf, hc3.infix hinf, ?_, ?_⟩
  · intro c hc
    exact pyStrip_head _ hc
  · intro c hc
    exact pyStrip_getLast _ hc

/-- Claim C8, corrected: `clean_text` does not preserve the newline
structure — the spec example's two newlines collapse to one, because the
second substitution's `\s+` also swallows newlines. -/
theorem c8_newline_collapse_counterexample :
    clean_text ("a   b\t\tc \n\n d") = ("a b c\n d") ∧
    ("a   b\t\tc \n\n d").data.count '\n' = 2 ∧
    (clean_text ("a   b\t\tc \n\n d")).data.count '\n' = 1 ∧
    clean_text ("a   b\t\tc \n\n d") ≠ ("a b c\n\n d") := by
  refine ⟨by decide, by decide, by decide, by decide⟩

/-- Claim C8, amended: normalization collapses runs of spaces/tabs to a
single space, collapses any whitespace run ending in a newline to a bare
newline (so blank lines are merged), and trims the ends; the example input
yields `"a b c\n d"` with its two newlines merged into one. -/
theorem c8_normalization_amended :
    clean_text ("a   b\t\tc \n\n d") = ("a b c\n d") ∧
    ∀ t : String,
      '\t' ∉ (clean_text t).data ∧
      List.Chain' noHTPair (clean_text t).data ∧
      List.Chain' noSpaceBeforeNL (clean_text t).data ∧
      (∀ c, (clean_text t).data.head? = some c → isPySpace c = false) ∧
      (∀ c, (clean_text t).data.getLast? = some c → isPySpace c = false) :=
  ⟨by decide, clean_text_props⟩

/-- Concrete instance of the trimming clause of `c8_normalization_amended`. -/
theorem c8_normalization_amended_witness : isPySpace ('x') = false :=
  ((c8_normalization_amended.2 ("x")).2.2.2.1) ('x') (by decide)

end Scrap

/-! ### Model validation on further concrete inputs, matching the behavior
of the Python regular-expression and URL libraries the source calls. -/

theorem clean_text_squeezes_blank_lines :
    Scrap.clean_text ("  x \n\n\n y\t \n ") = ("x\n y") := by decide

theorem date_slug_backtracks : Scrap.date_slug_of_title ("123.4.25") = ("2025-04-23") := by
  decide

theorem date_slug_first_match_only :
    Scrap.date_slug_of_title ("12.13.2025 1.2.2025") = ("") := by decide

theorem urljoin_root_relative :
    Scrap.urljoin Scrap.START_URL ("/news/x") = ("https://www.zsu.gov.ua/news/x") := by decide

theorem urljoin_relative :
    Scrap.urljoin Scrap.START_URL ("rel-x") = ("https://www.zsu.gov.ua/news/rel-x") := by decide

